import Mathlib

/-!
Verification development for the iXBRL viewer builder plugin
(`iXBRLViewer.py`).  The Python source is shallowly embedded: Python
`dict`s become ordered association lists with insert-or-overwrite
semantics, Python `str` becomes `String` (or `List Char` where the code
manipulates individual characters), and each method of the source becomes
a Lean function that threads the mutated state explicitly.
-/

namespace IXV

/-! ## Ordered dictionaries (the embedding of Python `dict`)

A Python `dict` preserves insertion order; assigning to an existing key
overwrites its value in place, assigning to a fresh key appends it at the
end.  `lookup`/`setKey`/`hasKey` reproduce exactly that. -/

abbrev Dict (α β : Type) := List (α × β)

def lookup {α β : Type} [DecidableEq α] : Dict α β → α → Option β
  | [], _ => none
  | (k, v) :: rest, k' => if k' = k then some v else lookup rest k'

def hasKey {α β : Type} [DecidableEq α] (d : Dict α β) (k : α) : Bool :=
  (lookup d k).isSome

def setKey {α β : Type} [DecidableEq α] : Dict α β → α → β → Dict α β
  | [], k, v => [(k, v)]
  | (k0, v0) :: rest, k, v =>
    if k = k0 then (k0, v) :: rest else (k0, v0) :: setKey rest k v

theorem lookup_setKey_self {α β : Type} [DecidableEq α] (d : Dict α β) (k : α) (v : β) :
    lookup (setKey d k v) k = some v := by
  induction d with
  | nil => simp [setKey, lookup]
  | cons hd tl ih =>
    obtain ⟨k0, v0⟩ := hd
    by_cases h : k = k0
    · simp [setKey, h, lookup]
    · simp [setKey, h, lookup, ih]

theorem lookup_setKey_ne {α β : Type} [DecidableEq α] (d : Dict α β) (k k' : α) (v : β)
    (h : k' ≠ k) : lookup (setKey d k v) k' = lookup d k' := by
  induction d with
  | nil => simp [setKey, lookup, h]
  | cons hd tl ih =>
    obtain ⟨k0, v0⟩ := hd
    by_cases hk : k = k0
    · subst hk
      simp [setKey, lookup, h]
    · by_cases hk' : k' = k0
      · simp [setKey, hk, lookup, hk']
      · simp [setKey, hk, lookup, hk', ih]

theorem lookup_mem_keys {α β : Type} [DecidableEq α] (d : Dict α β) (k : α) (v : β)
    (h : lookup d k = some v) : k ∈ d.map Prod.fst := by
  induction d with
  | nil => simp [lookup] at h
  | cons hd tl ih =>
    obtain ⟨k0, v0⟩ := hd
    by_cases hk : k = k0
    · simp [hk]
    · simp only [lookup, if_neg hk] at h
      simp [ih h]

/-! ## Decimal rendering (the embedding of Python's `"%d" % n`)

`decRepr n` is the usual decimal numeral of `n`, most significant digit
first, without padding.  The recursion is driven by a fuel argument (any
fuel above `n` is enough, since `n / 10 < n`) so that the function stays
structurally recursive and kernel-computable.  `decReprVal` recovers the
number, which gives injectivity of the rendering. -/

def decDigit (d : Nat) : Char :=
  match d with
  | 0 => '0' | 1 => '1' | 2 => '2' | 3 => '3' | 4 => '4'
  | 5 => '5' | 6 => '6' | 7 => '7' | 8 => '8' | _ => '9'

def decReprCore : Nat → Nat → List Char → List Char
  | 0, _, acc => acc
  | fuel + 1, n, acc =>
    if n < 10 then decDigit n :: acc
    else decReprCore fuel (n / 10) (decDigit (n % 10) :: acc)

def decRepr (n : Nat) : List Char := decReprCore (n + 1) n []

/-- Number of decimal digits: the length of `decRepr n`. -/
def digitCount (n : Nat) : Nat :=
  if n < 10 then 1 else digitCount (n / 10) + 1
  termination_by n
  decreasing_by exact Nat.div_lt_self (by omega) (by omega)

def decReprVal (a : Nat) (l : List Char) : Nat :=
  l.foldl (fun x c => x * 10 + (c.toNat - 48)) a

theorem decReprVal_cons (a : Nat) (c : Char) (l : List Char) :
    decReprVal a (c :: l) = decReprVal (a * 10 + (c.toNat - 48)) l := rfl

theorem decReprCore_succ (fuel n : Nat) (acc : List Char) :
    decReprCore (fuel + 1) n acc =
      if n < 10 then decDigit n :: acc
      else decReprCore fuel (n / 10) (decDigit (n % 10) :: acc) := rfl

theorem digitCount_eq (n : Nat) :
    digitCount n = if n < 10 then 1 else digitCount (n / 10) + 1 := by
  rw [digitCount]

theorem decDigit_toNat (d : Nat) (h : d < 10) : (decDigit d).toNat - 48 = d := by
  interval_cases d <;> decide

theorem decReprCore_val : ∀ (fuel n : Nat), n < fuel → ∀ (a : Nat) (acc : List Char),
    decReprVal a (decReprCore fuel n acc) = decReprVal (a * 10 ^ digitCount n + n) acc := by
  intro fuel
  induction fuel with
  | zero => omega
  | succ fuel ih =>
    intro n hn a acc
    by_cases h : n < 10
    · rw [decReprCore_succ, if_pos h, decReprVal_cons, decDigit_toNat n h,
        digitCount_eq n, if_pos h]
      ring_nf
    · rw [decReprCore_succ, if_neg h]
      have hlt : n / 10 < fuel := by
        have h10 : n / 10 < n := Nat.div_lt_self (by omega) (by omega)
        omega
      rw [ih (n / 10) hlt a (decDigit (n % 10) :: acc)]
      have hm : n % 10 < 10 := Nat.mod_lt _ (by omega)
      rw [decReprVal_cons, decDigit_toNat _ hm, digitCount_eq n, if_neg h]
      congr 1
      have hdm : n / 10 * 10 + n % 10 = n := by omega
      ring_nf
      omega

theorem decReprVal_decRepr (n : Nat) : decReprVal 0 (decRepr n) = n := by
  have h := decReprCore_val (n + 1) n (by omega) 0 []
  simpa [decRepr, decReprVal, List.foldl] using h

theorem decRepr_injective : Function.Injective decRepr := by
  intro a b h
  have ha := decReprVal_decRepr a
  have hb := decReprVal_decRepr b
  rw [h] at ha
  omega

theorem decReprCore_ne_nil (fuel n : Nat) (h : n < fuel) :
    ∀ acc, decReprCore fuel n acc ≠ [] := by
  induction fuel generalizing n with
  | zero => omega
  | succ fuel ih =>
    intro acc
    by_cases hlt : n < 10
    · rw [decReprCore_succ, if_pos hlt]
      simp
    · rw [decReprCore_succ, if_neg hlt]
      have : n / 10 < fuel := by
        have h10 : n / 10 < n := Nat.div_lt_self (by omega) (by omega)
        omega
      exact ih (n / 10) this _

theorem decRepr_ne_nil (n : Nat) : decRepr n ≠ [] :=
  decReprCore_ne_nil (n + 1) n (by omega) []

/-- The decimal string `"%d" % n`. -/
def decStr (n : Nat) : String := ⟨decRepr n⟩

theorem decStr_injective : Function.Injective decStr := by
  intro a b h
  exact decRepr_injective (congrArg String.data h)

/-- The formatted string `"%s%d" % (p, n)`. -/
def pctSD (p : String) (n : Nat) : String := p ++ decStr n

theorem pctSD_inj (p : String) (a b : Nat) (h : pctSD p a = pctSD p b) : a = b := by
  have hd : p.data ++ (decStr a).data = p.data ++ (decStr b).data := by
    have := congrArg String.data h
    simpa [pctSD, String.data_append] using this
  exact decStr_injective (String.ext (List.append_cancel_left hd))

theorem pctSD_ne_empty (p : String) (n : Nat) : pctSD p n ≠ "" := by
  intro h
  have hd := congrArg String.data h
  simp only [pctSD, String.data_append] at hd
  exact decRepr_ne_nil n (List.append_eq_nil.mp hd).2

/-! ## The prefix allocator (class `NamespaceMap` of the source)

`getPrefix` embeds `NamespaceMap.getPrefix`; Python truthiness (`if not
prefix:`, `if preferredPrefix`) treats both `None` and the empty string as
false, which the embedding reproduces exactly.  The `while` loop searching
for a free numbered prefix is given `prefixmap.length + 1` steps of fuel;
`exists_fresh_suffix` (a pigeonhole argument) shows this bound always
suffices, so the fueled search computes exactly what the unbounded loop
does. -/

structure NamespaceMap where
  nsmap : Dict String String
  prefixmap : Dict String String
deriving DecidableEq

def NamespaceMap.init : NamespaceMap := ⟨[], []⟩

def findSuffixAux (pm : Dict String String) (p : String) : Nat → Nat → Nat
  | 0, n => n
  | fuel + 1, n => if hasKey pm (pctSD p n) then findSuffixAux pm p fuel (n + 1) else n

def findSuffix (pm : Dict String String) (p : String) : Nat :=
  findSuffixAux pm p (pm.length + 1) 0

/-- Branch of `getPrefix` taken when the namespace has no (truthy) prefix
yet: try the preferred prefix, else suffix a counter; then record the
binding in both maps. -/
def NamespaceMap.bindFresh (m : NamespaceMap) (ns : String) (preferredPrefix : Option String) :
    String × NamespaceMap :=
  let pfx :=
    match preferredPrefix with
    | some q =>
      if q ≠ "" ∧ ¬ hasKey m.prefixmap q then q
      else
        let base := if q ≠ "" then q else "ns"
        pctSD base (findSuffix m.prefixmap base)
    | none => pctSD "ns" (findSuffix m.prefixmap "ns")
  (pfx, ⟨setKey m.nsmap ns pfx, setKey m.prefixmap pfx ns⟩)

def NamespaceMap.getPrefix (m : NamespaceMap) (ns : String) (preferredPrefix : Option String) :
    String × NamespaceMap :=
  match lookup m.nsmap ns with
  | some p => if p ≠ "" then (p, m) else m.bindFresh ns preferredPrefix
  | none => m.bindFresh ns preferredPrefix

theorem findSuffixAux_succ (pm : Dict String String) (p : String) (fuel n : Nat) :
    findSuffixAux pm p (fuel + 1) n =
      if hasKey pm (pctSD p n) then findSuffixAux pm p fuel (n + 1) else n := rfl

theorem exists_fresh_suffix (pm : Dict String String) (p : String) :
    ∃ n, n ≤ pm.length ∧ hasKey pm (pctSD p n) = false := by
  by_contra hc
  push_neg at hc
  have hall : ∀ n : Nat, n ≤ pm.length → hasKey pm (pctSD p n) = true := by
    intro n hn
    have := hc n hn
    revert this
    cases hasKey pm (pctSD p n) <;> simp
  have hmem : ∀ n : Nat, n ≤ pm.length → pctSD p n ∈ (pm.map Prod.fst).toFinset := by
    intro n hn
    have h1 := hall n hn
    unfold hasKey at h1
    obtain ⟨v, hv⟩ := Option.isSome_iff_exists.mp h1
    exact List.mem_toFinset.mpr (lookup_mem_keys pm _ v hv)
  have hinj : Set.InjOn (fun i : Fin (pm.length + 1) => pctSD p i.val)
      (Finset.univ : Finset (Fin (pm.length + 1))) := by
    intro a _ b _ hab
    exact Fin.ext (pctSD_inj p _ _ hab)
  have hcard := Finset.card_le_card_of_injOn (fun i : Fin (pm.length + 1) => pctSD p i.val)
    (fun i _ => hmem i.val (by omega)) hinj
  have h1 : (Finset.univ : Finset (Fin (pm.length + 1))).card = pm.length + 1 := by
    simp
  have h2 : (pm.map Prod.fst).toFinset.card ≤ pm.length := by
    calc (pm.map Prod.fst).toFinset.card ≤ (pm.map Prod.fst).length := List.toFinset_card_le _
      _ = pm.length := List.length_map _ _
  omega

theorem findSuffixAux_spec (pm : Dict String String) (p : String) :
    ∀ (fuel start : Nat), (∃ k, k < fuel ∧ hasKey pm (pctSD p (start + k)) = false) →
    hasKey pm (pctSD p (findSuffixAux pm p fuel start)) = false ∧
    start ≤ findSuffixAux pm p fuel start ∧
    ∀ j, start ≤ j → j < findSuffixAux pm p fuel start → hasKey pm (pctSD p j) = true := by
  intro fuel
  induction fuel with
  | zero =>
    intro start h
    obtain ⟨k, hk, _⟩ := h
    omega
  | succ fuel ih =>
    intro start h
    rw [findSuffixAux_succ]
    by_cases hs : hasKey pm (pctSD p start) = true
    · rw [if_pos hs]
      have h' : ∃ k, k < fuel ∧ hasKey pm (pctSD p (start + 1 + k)) = false := by
        obtain ⟨k, hk, hfree⟩ := h
        match k, hk with
        | 0, _ => rw [Nat.add_zero] at hfree; rw [hs] at hfree; cases hfree
        | k + 1, hk =>
          exact ⟨k, by omega, by rw [show start + 1 + k = start + (k + 1) by omega]; exact hfree⟩
      obtain ⟨hfree, hle, hmin⟩ := ih (start + 1) h'
      refine ⟨hfree, by omega, ?_⟩
      intro j hj1 hj2
      by_cases hj : j = start
      · rw [hj]; exact hs
      · exact hmin j (by omega) hj2
    · rw [if_neg hs]
      have : hasKey pm (pctSD p start) = false := by
        revert hs; cases hasKey pm (pctSD p start) <;> simp
      exact ⟨this, Nat.le_refl _, fun j h1 h2 => by omega⟩

theorem findSuffix_spec (pm : Dict String String) (p : String) :
    hasKey pm (pctSD p (findSuffix pm p)) = false ∧
    ∀ j, j < findSuffix pm p → hasKey pm (pctSD p j) = true := by
  obtain ⟨n, hn, hfree⟩ := exists_fresh_suffix pm p
  have h := findSuffixAux_spec pm p (pm.length + 1) 0 ⟨n, by omega, by simpa using hfree⟩
  exact ⟨h.1, fun j hj => h.2.2 j (by omega) hj⟩

theorem bindFresh_fst_fresh (m : NamespaceMap) (ns : String) (pp : Option String) :
    hasKey m.prefixmap (m.bindFresh ns pp).1 = false := by
  cases pp with
  | none => exact (findSuffix_spec m.prefixmap "ns").1
  | some q =>
    by_cases h : q ≠ "" ∧ ¬ hasKey m.prefixmap q
    · have : (m.bindFresh ns (some q)).1 = q := by simp [NamespaceMap.bindFresh, h]
      rw [this]
      have := h.2
      revert this; cases hasKey m.prefixmap q <;> simp
    · have : (m.bindFresh ns (some q)).1 =
          pctSD (if q ≠ "" then q else "ns") (findSuffix m.prefixmap (if q ≠ "" then q else "ns")) := by
        simp only [NamespaceMap.bindFresh, if_neg h]
      rw [this]
      exact (findSuffix_spec m.prefixmap _).1

theorem bindFresh_fst_ne_empty (m : NamespaceMap) (ns : String) (pp : Option String) :
    (m.bindFresh ns pp).1 ≠ "" := by
  cases pp with
  | none => exact pctSD_ne_empty _ _
  | some q =>
    by_cases h : q ≠ "" ∧ ¬ hasKey m.prefixmap q
    · have : (m.bindFresh ns (some q)).1 = q := by simp [NamespaceMap.bindFresh, h]
      rw [this]; exact h.1
    · have : (m.bindFresh ns (some q)).1 =
          pctSD (if q ≠ "" then q else "ns") (findSuffix m.prefixmap (if q ≠ "" then q else "ns")) := by
        simp only [NamespaceMap.bindFresh, if_neg h]
      rw [this]; exact pctSD_ne_empty _ _

theorem bindFresh_snd (m : NamespaceMap) (ns : String) (pp : Option String) :
    (m.bindFresh ns pp).2 =
      ⟨setKey m.nsmap ns (m.bindFresh ns pp).1,
       setKey m.prefixmap (m.bindFresh ns pp).1 ns⟩ := rfl

theorem getPrefix_bound (m : NamespaceMap) (ns : String) (pp : Option String) (p : String)
    (h : lookup m.nsmap ns = some p) (hne : p ≠ "") : m.getPrefix ns pp = (p, m) := by
  simp [NamespaceMap.getPrefix, h, hne]

theorem getPrefix_unbound (m : NamespaceMap) (ns : String) (pp : Option String)
    (h : lookup m.nsmap ns = none) : m.getPrefix ns pp = m.bindFresh ns pp := by
  simp [NamespaceMap.getPrefix, h]

theorem getPrefix_binds (m : NamespaceMap) (ns : String) (pp : Option String) :
    lookup (m.getPrefix ns pp).2.nsmap ns = some (m.getPrefix ns pp).1 ∧
    (m.getPrefix ns pp).1 ≠ "" := by
  unfold NamespaceMap.getPrefix
  cases hl : lookup m.nsmap ns with
  | none =>
    simp only [bindFresh_snd]
    exact ⟨lookup_setKey_self _ _ _, bindFresh_fst_ne_empty m ns pp⟩
  | some p =>
    by_cases hp : p ≠ ""
    · simpa [hp] using hl
    · simp only [if_neg hp, bindFresh_snd]
      exact ⟨lookup_setKey_self _ _ _, bindFresh_fst_ne_empty m ns pp⟩

theorem getPrefix_stable (m : NamespaceMap) (ns : String) (pp pp' : Option String) :
    (m.getPrefix ns pp).2.getPrefix ns pp' = ((m.getPrefix ns pp).1, (m.getPrefix ns pp).2) := by
  obtain ⟨hbind, hne⟩ := getPrefix_binds m ns pp
  exact getPrefix_bound _ ns pp' _ hbind hne

theorem getPrefix_preserves (m : NamespaceMap) (ns' : String) (pp : Option String)
    (ns p : String) (h : lookup m.nsmap ns = some p) (hne : p ≠ "") :
    lookup (m.getPrefix ns' pp).2.nsmap ns = some p := by
  unfold NamespaceMap.getPrefix
  cases hl : lookup m.nsmap ns' with
  | none =>
    have hd : ns ≠ ns' := fun hc => by rw [hc, hl] at h; cases h
    simp only [bindFresh_snd]
    rw [lookup_setKey_ne _ _ _ _ hd]
    exact h
  | some q =>
    by_cases hq : q ≠ ""
    · simpa [hq] using h
    · have hd : ns ≠ ns' := fun hc => by
        rw [hc, hl] at h
        simp only [ne_eq, not_not] at hq
        have h2 : q = p := Option.some_inj.mp h
        exact hne (h2 ▸ hq)
      simp only [if_neg hq, bindFresh_snd]
      rw [lookup_setKey_ne _ _ _ _ hd]
      exact h

/-- Invariant of one allocator instance: `nsmap` and `prefixmap` are mutual
inverses, and every recorded prefix is non-empty (so Python's truthiness
test `if not prefix` coincides with `ns not bound`). -/
def NamespaceMap.good (m : NamespaceMap) : Prop :=
  (∀ ns p, lookup m.nsmap ns = some p → p ≠ "" ∧ lookup m.prefixmap p = some ns) ∧
  (∀ p ns, lookup m.prefixmap p = some ns → lookup m.nsmap ns = some p)

theorem good_init : NamespaceMap.init.good := by
  constructor
  · intro ns p h
    cases h
  · intro p ns h
    cases h

theorem good_getPrefix (m : NamespaceMap) (ns : String) (pp : Option String)
    (h : m.good) : (m.getPrefix ns pp).2.good := by
  unfold NamespaceMap.getPrefix
  cases hl : lookup m.nsmap ns with
  | some p =>
    by_cases hp : p ≠ ""
    · simpa [hp] using h
    · exfalso
      simp only [ne_eq, not_not] at hp
      exact ((h.1 ns p hl).1) hp
  | none =>
    simp only [bindFresh_snd]
    set pfx := (m.bindFresh ns pp).1 with hpfx
    have hfresh : hasKey m.prefixmap pfx = false := bindFresh_fst_fresh m ns pp
    have hnempty : pfx ≠ "" := bindFresh_fst_ne_empty m ns pp
    have hfresh' : lookup m.prefixmap pfx = none := by
      unfold hasKey at hfresh
      cases hq : lookup m.prefixmap pfx with
      | none => rfl
      | some v => rw [hq] at hfresh; cases hfresh
    constructor
    · intro x r hx
      by_cases hxs : x = ns
      · subst hxs
        rw [lookup_setKey_self] at hx
        obtain rfl : pfx = r := Option.some_inj.mp hx
        exact ⟨hnempty, lookup_setKey_self _ _ _⟩
      · rw [lookup_setKey_ne _ _ _ _ hxs] at hx
        obtain ⟨hr, hpm⟩ := h.1 x r hx
        have hrp : r ≠ pfx := by
          intro hc
          subst hc
          rw [hfresh'] at hpm
          exact Option.noConfusion hpm
        exact ⟨hr, by rw [lookup_setKey_ne _ _ _ _ hrp]; exact hpm⟩
    · intro q y hq
      by_cases hqp : q = pfx
      · subst hqp
        rw [lookup_setKey_self] at hq
        cases hq
        exact lookup_setKey_self _ _ _
      · rw [lookup_setKey_ne _ _ _ _ hqp] at hq
        have hy := h.2 q y hq
        have hyn : y ≠ ns := fun hc => by rw [hc, hl] at hy; cases hy
        rw [lookup_setKey_ne _ _ _ _ hyn]
        exact hy

/-- A sequence of `getPrefix` calls on one allocator instance. -/
def runCalls (m : NamespaceMap) : List (String × Option String) → NamespaceMap
  | [] => m
  | (ns, pp) :: rest => runCalls (m.getPrefix ns pp).2 rest

theorem good_runCalls (calls : List (String × Option String)) (m : NamespaceMap)
    (h : m.good) : (runCalls m calls).good := by
  induction calls generalizing m with
  | nil => exact h
  | cons c rest ih =>
    obtain ⟨ns, pp⟩ := c
    exact ih _ (good_getPrefix m ns pp h)

theorem runCalls_preserves (calls : List (String × Option String)) (m : NamespaceMap)
    (ns p : String) (h : lookup m.nsmap ns = some p) (hne : p ≠ "") :
    lookup (runCalls m calls).nsmap ns = some p := by
  induction calls generalizing m with
  | nil => exact h
  | cons c rest ih =>
    obtain ⟨ns', pp'⟩ := c
    exact ih _ (getPrefix_preserves m ns' pp' ns p h hne)

/-! ## `str.replace` and `escapeJSONForScriptTag`

`pyReplace` embeds Python's `str.replace`: leftmost non-overlapping
occurrences, replaced left to right (an empty pattern matches at every
position, as in Python).  Strings are handled as `List Char` here because
the method works character by character.  The recursion is fueled by the
input length, which is always enough because every step consumes at least
one input character. -/

def dropPat : List Char → List Char → Option (List Char)
  | [], l => some l
  | _ :: _, [] => none
  | p :: ps, c :: cs => if p = c then dropPat ps cs else none

def pyReplaceCore (pat rep : List Char) : Nat → List Char → List Char
  | _, [] => if pat = [] then rep else []
  | 0, l => l
  | fuel + 1, c :: cs =>
    if pat = [] then rep ++ c :: pyReplaceCore pat rep fuel cs
    else
      match dropPat pat (c :: cs) with
      | some rest => rep ++ pyReplaceCore pat rep fuel rest
      | none => c :: pyReplaceCore pat rep fuel cs

def pyReplace (pat rep l : List Char) : List Char := pyReplaceCore pat rep l.length l

/-- The six-character JSON escape of `<`, written `"\\u003C"` in the source. -/
def uLt : List Char := ['\\', 'u', '0', '0', '3', 'C']

/-- The six-character JSON escape of `>`, written `"\\u003E"` in the source. -/
def uGt : List Char := ['\\', 'u', '0', '0', '3', 'E']

/-- The six-character JSON escape of `&`, written `"\\u0026"` in the source. -/
def uAmp : List Char := ['\\', 'u', '0', '0', '2', '6']

/-- `escapeJSONForScriptTag`: the source's three chained `str.replace`
passes, in the source's order `<`, `>`, `&`. -/
def escapeJSONForScriptTag (s : List Char) : List Char :=
  pyReplace ['&'] uAmp (pyReplace ['>'] uGt (pyReplace ['<'] uLt s))

/-- The same three passes in the opposite order, used to state that the
order of the passes is irrelevant. -/
def escapeJSONRevOrder (s : List Char) : List Char :=
  pyReplace ['<'] uLt (pyReplace ['>'] uGt (pyReplace ['&'] uAmp s))

/-- Character-for-character substitution: the spec's description of the
escaping rule (each character is replaced independently). -/
def charSubst (f : Char → List Char) : List Char → List Char
  | [] => []
  | c :: cs => f c ++ charSubst f cs

/-- The spec's per-character replacement table. -/
def escSubstChar (c : Char) : List Char :=
  if c = '<' then uLt else if c = '>' then uGt else if c = '&' then uAmp else [c]

/-- Spec-side definition of the escaping: simultaneous character-for-character
substitution (to be compared with the source-side chained replaces). -/
def escapeSpec (s : List Char) : List Char := charSubst escSubstChar s

theorem charSubst_nil (f : Char → List Char) : charSubst f [] = [] := rfl

theorem charSubst_cons (f : Char → List Char) (c : Char) (l : List Char) :
    charSubst f (c :: l) = f c ++ charSubst f l := rfl

theorem charSubst_append (f : Char → List Char) (l1 l2 : List Char) :
    charSubst f (l1 ++ l2) = charSubst f l1 ++ charSubst f l2 := by
  induction l1 with
  | nil => simp [charSubst_nil]
  | cons c cs ih => simp [charSubst_cons, ih]

theorem mem_charSubst (f : Char → List Char) (l : List Char) (c' : Char)
    (h : c' ∈ charSubst f l) : ∃ c ∈ l, c' ∈ f c := by
  induction l with
  | nil => cases h
  | cons c cs ih =>
    rw [charSubst_cons, List.mem_append] at h
    cases h with
    | inl h1 => exact ⟨c, List.mem_cons_self c cs, h1⟩
    | inr h2 =>
      obtain ⟨c0, hc0, hm⟩ := ih h2
      exact ⟨c0, List.mem_cons_of_mem c hc0, hm⟩

theorem dropPat_single (p c : Char) (cs : List Char) :
    dropPat [p] (c :: cs) = if p = c then some cs else none := by
  by_cases h : p = c <;> simp [dropPat, h]

theorem pyReplaceCore_single (p : Char) (rep : List Char) :
    ∀ (fuel : Nat) (l : List Char), l.length ≤ fuel →
      pyReplaceCore [p] rep fuel l = charSubst (fun c => if c = p then rep else [c]) l := by
  intro fuel
  induction fuel with
  | zero =>
    intro l hl
    have : l = [] := List.length_eq_zero.mp (by omega)
    subst this
    simp [pyReplaceCore, charSubst_nil]
  | succ fuel ih =>
    intro l hl
    cases l with
    | nil => simp [pyReplaceCore, charSubst_nil]
    | cons c cs =>
      have hlen : cs.length ≤ fuel := by
        simp only [List.length_cons] at hl
        omega
      show pyReplaceCore [p] rep (fuel + 1) (c :: cs) = _
      rw [charSubst_cons]
      by_cases h : p = c
      · subst h
        have : pyReplaceCore [p] rep (fuel + 1) (p :: cs) =
            rep ++ pyReplaceCore [p] rep fuel cs := by
          simp [pyReplaceCore, dropPat_single]
        rw [this, ih cs hlen]
        simp
      · have : pyReplaceCore [p] rep (fuel + 1) (c :: cs) =
            c :: pyReplaceCore [p] rep fuel cs := by
          simp [pyReplaceCore, dropPat_single, h]
        rw [this, ih cs hlen]
        simp [Ne.symm h]

theorem pyReplace_single (p : Char) (rep : List Char) (l : List Char) :
    pyReplace [p] rep l = charSubst (fun c => if c = p then rep else [c]) l :=
  pyReplaceCore_single p rep l.length l (Nat.le_refl _)

theorem charSubst_charSubst (f g : Char → List Char) (l : List Char) :
    charSubst g (charSubst f l) = charSubst (fun c => charSubst g (f c)) l := by
  induction l with
  | nil => simp [charSubst_nil]
  | cons c cs ih => simp [charSubst_cons, charSubst_append, ih]

theorem escape_compose (c : Char) :
    charSubst
      (fun c => charSubst (fun c => if c = '&' then uAmp else [c])
        (if c = '>' then uGt else [c]))
      (if c = '<' then uLt else [c]) = escSubstChar c := by
  by_cases h1 : c = '<'
  · subst h1
    decide
  · by_cases h2 : c = '>'
    · subst h2
      decide
    · by_cases h3 : c = '&'
      · subst h3
        decide
      · simp [h1, h2, h3, charSubst_cons, charSubst_nil, escSubstChar]

theorem escape_compose_rev (c : Char) :
    charSubst
      (fun c => charSubst (fun c => if c = '<' then uLt else [c])
        (if c = '>' then uGt else [c]))
      (if c = '&' then uAmp else [c]) = escSubstChar c := by
  by_cases h1 : c = '&'
  · subst h1
    decide
  · by_cases h2 : c = '>'
    · subst h2
      decide
    · by_cases h3 : c = '<'
      · subst h3
        decide
      · simp [h1, h2, h3, charSubst_cons, charSubst_nil, escSubstChar]

theorem escapeJSONForScriptTag_eq_spec (s : List Char) :
    escapeJSONForScriptTag s = escapeSpec s := by
  unfold escapeJSONForScriptTag escapeSpec
  rw [pyReplace_single, pyReplace_single, pyReplace_single,
    charSubst_charSubst, charSubst_charSubst]
  induction s with
  | nil => rfl
  | cons c cs ih => rw [charSubst_cons, charSubst_cons, ih, escape_compose c]

theorem escapeJSONRevOrder_eq_spec (s : List Char) :
    escapeJSONRevOrder s = escapeSpec s := by
  unfold escapeJSONRevOrder escapeSpec
  rw [pyReplace_single, pyReplace_single, pyReplace_single,
    charSubst_charSubst, charSubst_charSubst]
  induction s with
  | nil => rfl
  | cons c cs ih => rw [charSubst_cons, charSubst_cons, ih, escape_compose_rev c]

theorem escSubstChar_no_special (c c' : Char) (h : c' ∈ escSubstChar c) :
    c' ≠ '<' ∧ c' ≠ '>' ∧ c' ≠ '&' := by
  unfold escSubstChar at h
  by_cases h1 : c = '<'
  · rw [if_pos h1] at h
    fin_cases h <;> decide
  · rw [if_neg h1] at h
    by_cases h2 : c = '>'
    · rw [if_pos h2] at h
      fin_cases h <;> decide
    · rw [if_neg h2] at h
      by_cases h3 : c = '&'
      · rw [if_pos h3] at h
        fin_cases h <;> decide
      · rw [if_neg h3, List.mem_singleton] at h
        subst h
        exact ⟨h1, h2, h3⟩

theorem escapeSpec_no_special (s : List Char) (c' : Char) (h : c' ∈ escapeSpec s) :
    c' ≠ '<' ∧ c' ≠ '>' ∧ c' ≠ '&' := by
  obtain ⟨c, _, hm⟩ := mem_charSubst _ s c' h
  exact escSubstChar_no_special c c' hm

/-! ## A JSON string-literal decoder

`jsonStringUnescape` decodes the body of a JSON string literal: `\uXXXX`
escapes, the short escapes `\"` `\\` `\/` `\b` `\f` `\n` `\r` `\t`, and
plain characters (rejecting an unescaped quote, backslash or control
character, as the JSON grammar does).  It models what a JSON parser does
to the escaped payload, so that the claim "re-parsing the escaped text
recovers the original string values" can be stated: escaping never
changes the decoded value. -/

def hexVal (c : Char) : Option Nat :=
  if '0' ≤ c ∧ c ≤ '9' then some (c.toNat - 48)
  else if 'a' ≤ c ∧ c ≤ 'f' then some (c.toNat - 87)
  else if 'A' ≤ c ∧ c ≤ 'F' then some (c.toNat - 55)
  else none

def escDecode (c : Char) : Option Char :=
  if c = '"' then some '"'
  else if c = '\\' then some '\\'
  else if c = '/' then some '/'
  else if c = 'b' then some (Char.ofNat 8)
  else if c = 'f' then some (Char.ofNat 12)
  else if c = 'n' then some (Char.ofNat 10)
  else if c = 'r' then some (Char.ofNat 13)
  else if c = 't' then some (Char.ofNat 9)
  else none

def hex4 (a b c d : Char) : Option Nat :=
  (hexVal a).bind fun ha => (hexVal b).bind fun hb => (hexVal c).bind fun hc =>
    (hexVal d).map fun hd => ((ha * 16 + hb) * 16 + hc) * 16 + hd

/-- Decode a `\uXXXX` payload: four hex digits and the remaining input. -/
def decodeU : List Char → Option (Char × List Char)
  | a :: b :: c :: d :: rest2 =>
    match hex4 a b c d with
    | some n => some (Char.ofNat n, rest2)
    | none => none
  | _ => none

/-- Decode one escape sequence (the part after the backslash), returning
the decoded character and the remaining input. -/
def decodeEscape : List Char → Option (Char × List Char)
  | [] => none
  | e :: rest =>
    if e = 'u' then decodeU rest
    else
      match escDecode e with
      | some ch => some (ch, rest)
      | none => none

def unescapeCore : Nat → List Char → Option (List Char)
  | _, [] => some []
  | 0, _ :: _ => none
  | fuel + 1, c :: rest =>
    if c = '\\' then
      match decodeEscape rest with
      | some (ch, rest2) => (unescapeCore fuel rest2).map (fun r => ch :: r)
      | none => none
    else if c = '"' ∨ c.toNat < 32 then none
    else (unescapeCore fuel rest).map (fun r => c :: r)

def jsonStringUnescape (l : List Char) : Option (List Char) := unescapeCore l.length l

theorem unescapeCore_nil (fuel : Nat) : unescapeCore fuel [] = some [] := by
  cases fuel <;> rfl

theorem unescapeCore_cons (fuel : Nat) (c : Char) (rest : List Char) :
    unescapeCore (fuel + 1) (c :: rest) =
      if c = '\\' then
        match decodeEscape rest with
        | some (ch, rest2) => (unescapeCore fuel rest2).map (fun r => ch :: r)
        | none => none
      else if c = '"' ∨ c.toNat < 32 then none
      else (unescapeCore fuel rest).map (fun r => c :: r) := rfl

theorem decodeEscape_cons (e : Char) (rest : List Char) :
    decodeEscape (e :: rest) =
      if e = 'u' then decodeU rest
      else
        match escDecode e with
        | some ch => some (ch, rest)
        | none => none := rfl

theorem decodeU_length (x : List Char) (ch : Char) (r : List Char)
    (h : decodeU x = some (ch, r)) : r.length + 4 = x.length := by
  rcases x with _ | ⟨a, _ | ⟨b, _ | ⟨c, _ | ⟨d, rest2⟩⟩⟩⟩ <;>
    first
    | cases h
    | · rw [show decodeU (a :: b :: c :: d :: rest2) =
            match hex4 a b c d with
            | some n => some (Char.ofNat n, rest2)
            | none => none from rfl] at h
        cases hh : hex4 a b c d with
        | none => rw [hh] at h; cases h
        | some n =>
          rw [hh] at h
          cases h
          simp

theorem decodeEscape_length (x : List Char) (ch : Char) (r : List Char)
    (h : decodeEscape x = some (ch, r)) : r.length < x.length := by
  cases x with
  | nil => cases h
  | cons e rest =>
    rw [decodeEscape_cons] at h
    by_cases he : e = 'u'
    · rw [if_pos he] at h
      have := decodeU_length rest ch r h
      simp only [List.length_cons]
      omega
    · rw [if_neg he] at h
      cases hd : escDecode e with
      | none => rw [hd] at h; cases h
      | some c0 =>
        rw [hd] at h
        cases h
        simp

theorem escSubstChar_bs : escSubstChar '\\' = ['\\'] := by decide

theorem escSubstChar_u : escSubstChar 'u' = ['u'] := by decide

theorem escSubstChar_lt : escSubstChar '<' = uLt := by decide

theorem escSubstChar_gt : escSubstChar '>' = uGt := by decide

theorem escSubstChar_amp : escSubstChar '&' = uAmp := by decide

theorem escSubstChar_id (c : Char) (h1 : c ≠ '<') (h2 : c ≠ '>') (h3 : c ≠ '&') :
    escSubstChar c = [c] := by
  simp [escSubstChar, h1, h2, h3]

theorem escapeSpec_nil : escapeSpec [] = [] := rfl

theorem escapeSpec_cons (c : Char) (l : List Char) :
    escapeSpec (c :: l) = escSubstChar c ++ escapeSpec l := rfl

theorem hexVal_not_special (v : Char) (x : Nat) (h : hexVal v = some x) :
    escSubstChar v = [v] := by
  apply escSubstChar_id
  · intro hc
    subst hc
    rw [show hexVal '<' = none from by decide] at h
    cases h
  · intro hc
    subst hc
    rw [show hexVal '>' = none from by decide] at h
    cases h
  · intro hc
    subst hc
    rw [show hexVal '&' = none from by decide] at h
    cases h

theorem escDecode_not_special (e ch : Char) (h : escDecode e = some ch) :
    escSubstChar e = [e] := by
  apply escSubstChar_id
  · intro hc
    subst hc
    rw [show escDecode '<' = none from by decide] at h
    cases h
  · intro hc
    subst hc
    rw [show escDecode '>' = none from by decide] at h
    cases h
  · intro hc
    subst hc
    rw [show escDecode '&' = none from by decide] at h
    cases h

theorem decodeU_eq (a b c d : Char) (r : List Char) :
    decodeU (a :: b :: c :: d :: r) =
      match hex4 a b c d with
      | some n => some (Char.ofNat n, r)
      | none => none := rfl

theorem decodeU_lt (r : List Char) : decodeU ('0' :: '0' :: '3' :: 'C' :: r) = some ('<', r) := by
  rw [decodeU_eq, show hex4 '0' '0' '3' 'C' = some 60 from by decide]

theorem decodeU_gt (r : List Char) : decodeU ('0' :: '0' :: '3' :: 'E' :: r) = some ('>', r) := by
  rw [decodeU_eq, show hex4 '0' '0' '3' 'E' = some 62 from by decide]

theorem decodeU_amp (r : List Char) : decodeU ('0' :: '0' :: '2' :: '6' :: r) = some ('&', r) := by
  rw [decodeU_eq, show hex4 '0' '0' '2' '6' = some 38 from by decide]

theorem decodeEscape_escapeSpec (x : List Char) (ch : Char) (r : List Char)
    (h : decodeEscape x = some (ch, r)) :
    decodeEscape (escapeSpec x) = some (ch, escapeSpec r) := by
  cases x with
  | nil => cases h
  | cons e rest =>
    rw [decodeEscape_cons] at h
    by_cases he : e = 'u'
    · subst he
      rw [if_pos rfl] at h
      rcases rest with _ | ⟨a, _ | ⟨b, _ | ⟨c, _ | ⟨d, rest2⟩⟩⟩⟩
      · cases h
      · cases h
      · cases h
      · cases h
      · rw [decodeU_eq] at h
        cases hh : hex4 a b c d with
        | none => rw [hh] at h; cases h
        | some n =>
          rw [hh] at h
          obtain ⟨ha, hha, hrest⟩ := Option.bind_eq_some.mp hh
          obtain ⟨hb, hhb, hrest2⟩ := Option.bind_eq_some.mp hrest
          obtain ⟨hc, hhc, hrest3⟩ := Option.bind_eq_some.mp hrest2
          obtain ⟨hd, hhd, -⟩ := Option.map_eq_some'.mp hrest3
          have hsa := hexVal_not_special a ha hha
          have hsb := hexVal_not_special b hb hhb
          have hsc := hexVal_not_special c hc hhc
          have hsd := hexVal_not_special d hd hhd
          have hpair := Option.some_inj.mp h
          have hch : Char.ofNat n = ch := congrArg Prod.fst hpair
          have hr : rest2 = r := congrArg Prod.snd hpair
          rw [escapeSpec_cons, escSubstChar_u, escapeSpec_cons, hsa, escapeSpec_cons, hsb,
            escapeSpec_cons, hsc, escapeSpec_cons, hsd]
          show decodeEscape ('u' :: a :: b :: c :: d :: escapeSpec rest2) = some (ch, escapeSpec r)
          rw [decodeEscape_cons, if_pos rfl, decodeU_eq, hh, ← hch, ← hr]
    · rw [if_neg he] at h
      cases hd : escDecode e with
      | none => rw [hd] at h; cases h
      | some c0 =>
        rw [hd] at h
        have hpair := Option.some_inj.mp h
        have hch : c0 = ch := congrArg Prod.fst hpair
        have hr : rest = r := congrArg Prod.snd hpair
        rw [escapeSpec_cons, escDecode_not_special e c0 hd]
        show decodeEscape (e :: escapeSpec rest) = some (ch, escapeSpec r)
        rw [decodeEscape_cons, if_neg he, hd, hch, ← hr]

theorem unescapeCore_escapeSpec : ∀ (fuel : Nat) (l : List Char), l.length ≤ fuel →
    ∀ (t : List Char), unescapeCore fuel l = some t →
    ∀ (fuel2 : Nat), (escapeSpec l).length ≤ fuel2 →
    unescapeCore fuel2 (escapeSpec l) = some t := by
  intro fuel
  induction fuel with
  | zero =>
    intro l hl t ht fuel2 h2
    have hnil : l = [] := List.length_eq_zero.mp (by omega)
    subst hnil
    rw [unescapeCore_nil] at ht
    rw [escapeSpec_nil, unescapeCore_nil]
    exact ht
  | succ fuel ih =>
    intro l hl t ht fuel2 h2
    cases l with
    | nil =>
      rw [unescapeCore_nil] at ht
      rw [escapeSpec_nil, unescapeCore_nil]
      exact ht
    | cons c rest =>
      have hrl : rest.length ≤ fuel := by
        simp only [List.length_cons] at hl
        omega
      rw [unescapeCore_cons] at ht
      by_cases hc : c = '\\'
      · subst hc
        rw [if_pos rfl] at ht
        cases hde : decodeEscape rest with
        | none => rw [hde] at ht; cases ht
        | some pr =>
          obtain ⟨ch, rest2⟩ := pr
          rw [hde] at ht
          change (unescapeCore fuel rest2).map (fun r => ch :: r) = some t at ht
          cases hu : unescapeCore fuel rest2 with
          | none => rw [hu] at ht; cases ht
          | some r =>
            rw [hu, Option.map_some'] at ht
            have htr : t = ch :: r := (Option.some_inj.mp ht).symm
            rw [escapeSpec_cons, escSubstChar_bs]
            have hlen2 : rest2.length ≤ fuel :=
              le_trans (le_of_lt (decodeEscape_length rest ch rest2 hde)) hrl
            have hde2 := decodeEscape_escapeSpec rest ch rest2 hde
            cases fuel2 with
            | zero =>
              exfalso
              rw [escapeSpec_cons, escSubstChar_bs] at h2
              simp at h2
            | succ f2 =>
              show unescapeCore (f2 + 1) ('\\' :: escapeSpec rest) = some t
              rw [unescapeCore_cons, if_pos rfl, hde2]
              show (unescapeCore f2 (escapeSpec rest2)).map (fun r => ch :: r) = some t
              have hlen3 : (escapeSpec rest2).length ≤ f2 := by
                have hd2 := decodeEscape_length _ _ _ hde2
                rw [escapeSpec_cons, escSubstChar_bs] at h2
                simp only [List.singleton_append, List.length_cons] at h2
                omega
              rw [ih rest2 hlen2 r hu f2 hlen3, Option.map_some', htr]
      · rw [if_neg hc] at ht
        by_cases hq : c = '"' ∨ c.toNat < 32
        · rw [if_pos hq] at ht
          cases ht
        · rw [if_neg hq] at ht
          cases hu : unescapeCore fuel rest with
          | none => rw [hu] at ht; cases ht
          | some r =>
            rw [hu, Option.map_some'] at ht
            have htr : t = c :: r := (Option.some_inj.mp ht).symm
            by_cases hlt : c = '<'
            · subst hlt
              rw [escapeSpec_cons, escSubstChar_lt,
                show uLt ++ escapeSpec rest =
                  '\\' :: 'u' :: '0' :: '0' :: '3' :: 'C' :: escapeSpec rest from rfl]
              cases fuel2 with
              | zero =>
                exfalso
                rw [escapeSpec_cons, escSubstChar_lt] at h2
                simp [uLt] at h2
              | succ f2 =>
                rw [unescapeCore_cons, if_pos rfl, decodeEscape_cons, if_pos rfl, decodeU_lt]
                show (unescapeCore f2 (escapeSpec rest)).map (fun r => '<' :: r) = some t
                have hlen3 : (escapeSpec rest).length ≤ f2 := by
                  rw [escapeSpec_cons, escSubstChar_lt] at h2
                  rw [List.length_append, show uLt.length = 6 from rfl] at h2
                  omega
                rw [ih rest hrl r hu f2 hlen3, Option.map_some', htr]
            · by_cases hgt : c = '>'
              · subst hgt
                rw [escapeSpec_cons, escSubstChar_gt,
                  show uGt ++ escapeSpec rest =
                    '\\' :: 'u' :: '0' :: '0' :: '3' :: 'E' :: escapeSpec rest from rfl]
                cases fuel2 with
                | zero =>
                  exfalso
                  rw [escapeSpec_cons, escSubstChar_gt] at h2
                  simp [uGt] at h2
                | succ f2 =>
                  rw [unescapeCore_cons, if_pos rfl, decodeEscape_cons, if_pos rfl, decodeU_gt]
                  show (unescapeCore f2 (escapeSpec rest)).map (fun r => '>' :: r) = some t
                  have hlen3 : (escapeSpec rest).length ≤ f2 := by
                    rw [escapeSpec_cons, escSubstChar_gt] at h2
                    rw [List.length_append, show uGt.length = 6 from rfl] at h2
                    omega
                  rw [ih rest hrl r hu f2 hlen3, Option.map_some', htr]
              · by_cases hamp : c = '&'
                · subst hamp
                  rw [escapeSpec_cons, escSubstChar_amp,
                    show uAmp ++ escapeSpec rest =
                      '\\' :: 'u' :: '0' :: '0' :: '2' :: '6' :: escapeSpec rest from rfl]
                  cases fuel2 with
                  | zero =>
                    exfalso
                    rw [escapeSpec_cons, escSubstChar_amp] at h2
                    simp [uAmp] at h2
                  | succ f2 =>
                    rw [unescapeCore_cons, if_pos rfl, decodeEscape_cons, if_pos rfl, decodeU_amp]
                    show (unescapeCore f2 (escapeSpec rest)).map (fun r => '&' :: r) = some t
                    have hlen3 : (escapeSpec rest).length ≤ f2 := by
                      rw [escapeSpec_cons, escSubstChar_amp] at h2
                      rw [List.length_append, show uAmp.length = 6 from rfl] at h2
                      omega
                    rw [ih rest hrl r hu f2 hlen3, Option.map_some', htr]
                · rw [escapeSpec_cons, escSubstChar_id c hlt hgt hamp]
                  cases fuel2 with
                  | zero =>
                    exfalso
                    rw [escapeSpec_cons, escSubstChar_id c hlt hgt hamp] at h2
                    simp at h2
                  | succ f2 =>
                    show unescapeCore (f2 + 1) (c :: escapeSpec rest) = some t
                    rw [unescapeCore_cons, if_neg hc, if_neg hq]
                    have hlen3 : (escapeSpec rest).length ≤ f2 := by
                      rw [escapeSpec_cons, escSubstChar_id c hlt hgt hamp] at h2
                      simp only [List.singleton_append, List.length_cons] at h2
                      omega
                    rw [ih rest hrl r hu f2 hlen3, Option.map_some', htr]

theorem jsonStringUnescape_escapeSpec (x t : List Char) (h : jsonStringUnescape x = some t) :
    jsonStringUnescape (escapeSpec x) = some t :=
  unescapeCore_escapeSpec x.length x (Nat.le_refl _) t h (escapeSpec x).length (Nat.le_refl _)

/-- C1: `escapeJSONForScriptTag` is exactly the character-for-character
substitution sending `<` to `\u003C`, `>` to `\u003E` and `&` to
`\u0026` and leaving every other character unchanged; the same holds with
the three replace passes run in the opposite order; the result contains no
literal `<`, `>` or `&`; and re-parsing an escaped JSON string-literal
body recovers exactly the value of the original, so string values survive
the embedding escape. -/
theorem escapeJSONForScriptTag_correct (s x t : List Char)
    (h : jsonStringUnescape x = some t) :
    escapeJSONForScriptTag s = escapeSpec s ∧
    escapeJSONRevOrder s = escapeSpec s ∧
    (∀ c ∈ escapeJSONForScriptTag s, c ≠ '<' ∧ c ≠ '>' ∧ c ≠ '&') ∧
    jsonStringUnescape (escapeJSONForScriptTag x) = some t := by
  refine ⟨escapeJSONForScriptTag_eq_spec s, escapeJSONRevOrder_eq_spec s, ?_, ?_⟩
  · intro c hc
    rw [escapeJSONForScriptTag_eq_spec] at hc
    exact escapeSpec_no_special s c hc
  · rw [escapeJSONForScriptTag_eq_spec]
    exact jsonStringUnescape_escapeSpec x t h

/-- Witness for C1 at the concrete payload `a<&>"` (decoded from a JSON
body containing an escape): the escape pass preserves the decoded value. -/
theorem escapeJSONForScriptTag_correct_witness :
    jsonStringUnescape ['a', '<', '&', '>'] = some ['a', '<', '&', '>'] ∧
    jsonStringUnescape (escapeJSONForScriptTag ['a', '<', '&', '>']) =
      some ['a', '<', '&', '>'] :=
  ⟨by decide,
   (escapeJSONForScriptTag_correct [] ['a', '<', '&', '>'] ['a', '<', '&', '>']
      (by decide)).2.2.2⟩

/-- C2: over any sequence of `getPrefix` calls on one allocator started
empty, `nsmap` and `prefixmap` remain mutual inverses (each identifier is
bound to one non-empty prefix and vice versa), no two distinct identifiers
resolve to the same prefix, and once an identifier has been given a prefix
every later `getPrefix` call with that identifier returns the same prefix
regardless of the preferred prefix passed. -/
theorem namespaceMap_invariant_stable (calls more : List (String × Option String))
    (ns : String) (pp pp' : Option String) :
    (runCalls NamespaceMap.init calls).good ∧
    (∀ ns1 ns2 p, lookup (runCalls NamespaceMap.init calls).nsmap ns1 = some p →
        lookup (runCalls NamespaceMap.init calls).nsmap ns2 = some p → ns1 = ns2) ∧
    ((runCalls ((runCalls NamespaceMap.init calls).getPrefix ns pp).2 more).getPrefix ns pp').1
      = ((runCalls NamespaceMap.init calls).getPrefix ns pp).1 := by
  have hg : (runCalls NamespaceMap.init calls).good := good_runCalls calls _ good_init
  refine ⟨hg, ?_, ?_⟩
  · intro ns1 ns2 p h1 h2
    have e1 := (hg.1 ns1 p h1).2
    have e2 := (hg.1 ns2 p h2).2
    rw [e1] at e2
    exact Option.some_inj.mp e2
  · obtain ⟨hb, hne⟩ := getPrefix_binds (runCalls NamespaceMap.init calls) ns pp
    have hpres := runCalls_preserves more _ ns _ hb hne
    rw [getPrefix_bound _ ns pp' _ hpres hne]

/-- Witness for C2: a concrete run in which the identifier `nsB` is bound
while other calls interleave, and uniqueness applied at a concrete state. -/
theorem namespaceMap_invariant_stable_witness :
    ("nsA" : String) = "nsA" ∧
    ((runCalls ((runCalls NamespaceMap.init [("nsA", some "x")]).getPrefix "nsB" (some "x")).2
        [("nsC", none)]).getPrefix "nsB" (some "y")).1
      = ((runCalls NamespaceMap.init [("nsA", some "x")]).getPrefix "nsB" (some "x")).1 := by
  constructor
  · exact (namespaceMap_invariant_stable [("nsA", some "x")] [] "nsA" none none).2.1
      "nsA" "nsA" "x" (by decide) (by decide)
  · exact (namespaceMap_invariant_stable [("nsA", some "x")] [("nsC", none)]
      "nsB" (some "x") (some "y")).2.2

/-- C5: on an identifier not yet bound, `getPrefix` returns the preferred
prefix as-is when it is given (non-empty) and still free; otherwise it
returns the base (the preferred prefix, or the literal fallback `"ns"`
when none is given) suffixed with the smallest natural number, counted
from 0 in decimal without padding, whose concatenation is not yet a bound
prefix. -/
theorem getPrefix_unseen (m : NamespaceMap) (ns : String) (h : lookup m.nsmap ns = none) :
    (∀ q, q ≠ "" → hasKey m.prefixmap q = false → (m.getPrefix ns (some q)).1 = q) ∧
    (∀ q, q ≠ "" → hasKey m.prefixmap q = true →
      ∃ n, (m.getPrefix ns (some q)).1 = pctSD q n ∧
        hasKey m.prefixmap (pctSD q n) = false ∧
        ∀ k, k < n → hasKey m.prefixmap (pctSD q k) = true) ∧
    (∃ n, (m.getPrefix ns none).1 = pctSD "ns" n ∧
      hasKey m.prefixmap (pctSD "ns" n) = false ∧
      ∀ k, k < n → hasKey m.prefixmap (pctSD "ns" k) = true) := by
  refine ⟨?_, ?_, ?_⟩
  · intro q hq hfree
    rw [getPrefix_unbound m ns (some q) h]
    simp [NamespaceMap.bindFresh, hq, hfree]
  · intro q hq hbound
    rw [getPrefix_unbound m ns (some q) h]
    refine ⟨findSuffix m.prefixmap q, ?_, (findSuffix_spec m.prefixmap q).1,
      fun k hk => (findSuffix_spec m.prefixmap q).2 k hk⟩
    simp [NamespaceMap.bindFresh, hq, hbound]
  · rw [getPrefix_unbound m ns none h]
    exact ⟨findSuffix m.prefixmap "ns", rfl, (findSuffix_spec _ _).1,
      fun k hk => (findSuffix_spec _ _).2 k hk⟩

/-- Witness for C5: the spec's own example, `getPrefix "nsA" "x"` then
`getPrefix "nsB" "x"` on the same instance yield `"x"` then `"x0"`. -/
theorem getPrefix_unseen_witness :
    (NamespaceMap.init.getPrefix "nsA" (some "x")).1 = "x" ∧
    (((NamespaceMap.init.getPrefix "nsA" (some "x")).2).getPrefix "nsB" (some "x")).1 = "x0" := by
  constructor
  · exact (getPrefix_unseen NamespaceMap.init "nsA" (by decide)).1 "x" (by decide) (by decide)
  · obtain ⟨n, he, hf, hmin⟩ :=
      (getPrefix_unseen ((NamespaceMap.init.getPrefix "nsA" (some "x")).2) "nsB"
        (by decide)).2.1 "x" (by decide) (by decide)
    have hn : n = 0 := by
      by_contra hne
      exact absurd (hmin 0 (by omega)) (by decide)
    rw [he, hn]
    decide

/-! ## The document-model data the builder reads (arelle objects)

Shallow embedding of the parts of the arelle model the builder touches: a
qualified name, a label (the target of a `conceptLabel` relationship), a
concept carrying the labels the relationship-set query would return for
it, a dimension value, a context and a fact.  Timestamps are carried as
their `isoformat()` strings, and `unitMeasure` is `f.unit.measures[0][0]`
(present on numeric facts, the only ones for which the source reads it). -/

structure QName where
  namespaceURI : String
  pfx : Option String
  localName : String
deriving DecidableEq

structure Label where
  role : String
  xmlLang : String
  text : String
deriving DecidableEq

structure Concept where
  qname : QName
  labels : List Label
deriving DecidableEq

structure DimValue where
  dimensionQname : QName
  memberQname : Option QName
  dimension : Concept
  member : Concept
deriving DecidableEq

structure Context where
  qnameDims : List (QName × DimValue)
  isInstantPeriod : Bool
  isStartEndPeriod : Bool
  instantDatetime : String
  startDatetime : String
  endDatetime : String
deriving DecidableEq

structure Fact where
  id : Option String
  qname : QName
  context : Context
  isNumeric : Bool
  unitMeasure : QName
  format : String
  value : String
  concept : Concept
deriving DecidableEq

structure ModelXbrl where
  facts : List Fact
deriving DecidableEq

/-- `NamespaceMap.qname`: `"%s:%s" % (getPrefix(namespaceURI, prefix), localName)`. -/
def NamespaceMap.qname (m : NamespaceMap) (q : QName) : String × NamespaceMap :=
  let r := m.getPrefix q.namespaceURI q.pfx
  (r.1 ++ ":" ++ q.localName, r.2)

/-- `dateFormat`: `re.sub("T00:00:00$", "", d)` — strip a trailing
all-zero time component, leave anything else unchanged. -/
def dateFormat (d : String) : String :=
  if d.data.reverse.take 9 = "T00:00:00".data.reverse
  then ⟨d.data.take (d.data.length - 9)⟩ else d

/-! ## The builder state (`IXBRLViewerBuilder`)

`concepts` and `facts` are the two tables created in `__init__`;
`prefixes` and `roles` are added to the output at the end of
`saveViewer`. -/

structure FactData where
  f : String
  v : String
  c : String
  d : Dict String String
  u : Option String
  pf : Option String
  pt : Option String
deriving DecidableEq

structure ConceptData where
  labels : Dict String (Dict String String)
deriving DecidableEq

structure Builder where
  nsmap : NamespaceMap
  roleMap : NamespaceMap
  concepts : Dict String ConceptData
  facts : Dict String FactData
deriving DecidableEq

def Builder.init : Builder := ⟨NamespaceMap.init, NamespaceMap.init, [], []⟩

/-- The label loop of `addConcept`:
`conceptData["labels"].setdefault(roleMap.getPrefix(l.role), {})[l.xmlLang.lower()] = l.text`. -/
def collectLabels (rm : NamespaceMap) (acc : Dict String (Dict String String)) :
    List Label → NamespaceMap × Dict String (Dict String String)
  | [] => (rm, acc)
  | l :: rest =>
    let r := rm.getPrefix l.role none
    let inner := (lookup acc r.1).getD []
    collectLabels r.2 (setKey acc r.1 (setKey inner l.xmlLang.toLower l.text)) rest

/-- `addConcept`: the qualified name is computed (mutating `nsmap`) before
the membership test; a present concept is otherwise left untouched. -/
def Builder.addConcept (b : Builder) (concept : Concept) : Builder :=
  let cn := b.nsmap.qname concept.qname
  if hasKey b.concepts cn.1 then { b with nsmap := cn.2 }
  else
    let cl := collectLabels b.roleMap [] concept.labels
    { b with
      nsmap := cn.2
      roleMap := cl.1
      concepts := setKey b.concepts cn.1 ⟨cl.2⟩ }

/-- The dimension loop of the fact pass: a typed dimension (no member
qname) is skipped outright; otherwise
`dims[nsmap.qname(v.dimensionQname)] = nsmap.qname(v.memberQname)` (the
assignment's right-hand side is evaluated before the subscript, as in
Python) and both the dimension and the member concept are collected. -/
def processDims (b : Builder) (dims : Dict String String) :
    List (QName × DimValue) → Builder × Dict String String
  | [] => (b, dims)
  | (_, v) :: rest =>
    match v.memberQname with
    | none => processDims b dims rest
    | some mq =>
      let rm := b.nsmap.qname mq
      let rd := rm.2.qname v.dimensionQname
      let b1 := Builder.addConcept { b with nsmap := rd.2 } v.dimension
      let b2 := Builder.addConcept b1 v.member
      processDims b2 (setKey dims rd.1 rm.1) rest

/-- The body of the fact loop of `saveViewer`, for one fact whose
(possibly just assigned) identifier is `fid`. -/
def Builder.processFact (b : Builder) (fid : String) (f : Fact) : Builder :=
  let cn := b.nsmap.qname f.qname
  let pd := processDims { b with nsmap := cn.2 } [] f.context.qnameDims
  let ur : Option String × NamespaceMap :=
    if f.isNumeric then
      let r := pd.1.nsmap.qname f.unitMeasure
      (some r.1, r.2)
    else (none, pd.1.nsmap)
  let b2 := { pd.1 with nsmap := ur.2 }
  let factData : FactData :=
    { f := f.format
      v := f.value
      c := cn.1
      d := pd.2
      u := ur.1
      pf := if f.context.isInstantPeriod then none
            else if f.context.isStartEndPeriod then some (dateFormat f.context.startDatetime)
            else none
      pt := if f.context.isInstantPeriod then some (dateFormat f.context.instantDatetime)
            else if f.context.isStartEndPeriod then some (dateFormat f.context.endDatetime)
            else none }
  let b3 := { b2 with facts := setKey b2.facts fid factData }
  b3.addConcept f.concept

/-- The identifier a fact carries after the `if f.id is None:
f.set("id", "ixv-%d" % idGen)` step. -/
def effectiveId (idGen : Nat) (f : Fact) : String :=
  match f.id with
  | some i => i
  | none => "ixv-" ++ decStr idGen

/-- The fact loop: a fact with no identifier is assigned `"ixv-%d" % idGen`
(mutating the fact object), and `idGen` advances once per fact whether or
not an identifier was assigned.  Returns the final builder and the facts
as mutated. -/
def Builder.processFacts (b : Builder) (idGen : Nat) : List Fact → Builder × List Fact
  | [] => (b, [])
  | f :: rest =>
    let fid := effectiveId idGen f
    let f' := { f with id := some fid }
    let b1 := b.processFact fid f'
    let r := Builder.processFacts b1 (idGen + 1) rest
    (r.1, f' :: r.2)

/-- `XbrlConst.standardLabel` (arelle constant: the XBRL 2.1 standard
label role). -/
def standardLabel : String := "http://www.xbrl.org/2003/role/label"

/-- `XbrlConst.documentationLabel` (arelle constant). -/
def documentationLabel : String := "http://www.xbrl.org/2003/role/documentation"

structure TaxonomyData where
  concepts : Dict String ConceptData
  facts : Dict String FactData
  prefixes : Dict String String
  roles : Dict String String
deriving DecidableEq

/-- The data part of `saveViewer` (lines 104-146): seed the role map with
`std`/`doc`, run the fact loop from `idGen = 0`, then attach the two
prefix tables.  Returns the assembled taxonomy data and the facts as
mutated by identifier assignment. -/
def saveViewerData (dts : ModelXbrl) : TaxonomyData × List Fact :=
  let b0 := Builder.init
  let r1 := b0.roleMap.getPrefix standardLabel (some "std")
  let r2 := r1.2.getPrefix documentationLabel (some "doc")
  let pr := Builder.processFacts { b0 with roleMap := r2.2 } 0 dts.facts
  ({ concepts := pr.1.concepts
     facts := pr.1.facts
     prefixes := pr.1.nsmap.prefixmap
     roles := pr.1.roleMap.prefixmap }, pr.2)

/-! ## JSON shape of the serialized payload (`json.dumps(self.taxonomyData)`) -/

inductive JVal where
  | jstr (s : String)
  | jnull
  | jobj (fields : List (String × JVal))
deriving BEq

def FactData.toJ (fd : FactData) : JVal :=
  .jobj ([("f", .jstr fd.f), ("v", .jstr fd.v), ("c", .jstr fd.c),
          ("d", .jobj (fd.d.map (fun p => (p.1, JVal.jstr p.2)))),
          ("u", match fd.u with | some u => .jstr u | none => .jnull)]
    ++ (match fd.pf with | some x => [("pf", JVal.jstr x)] | none => [])
    ++ (match fd.pt with | some x => [("pt", JVal.jstr x)] | none => []))

def ConceptData.toJ (cd : ConceptData) : JVal :=
  .jobj [("labels", .jobj (cd.labels.map
    (fun p => (p.1, JVal.jobj (p.2.map (fun q => (q.1, JVal.jstr q.2)))))))]

def TaxonomyData.toJ (t : TaxonomyData) : JVal :=
  .jobj [("concepts", .jobj (t.concepts.map (fun p => (p.1, p.2.toJ)))),
         ("facts", .jobj (t.facts.map (fun p => (p.1, p.2.toJ)))),
         ("prefixes", .jobj (t.prefixes.map (fun p => (p.1, JVal.jstr p.2)))),
         ("roles", .jobj (t.roles.map (fun p => (p.1, JVal.jstr p.2))))]

/-! ## Helper lemmas about the builder -/

theorem addConcept_facts (b : Builder) (c : Concept) :
    (b.addConcept c).facts = b.facts := by
  simp only [Builder.addConcept]
  split <;> rfl

theorem addConcept_nsmap (b : Builder) (c : Concept) :
    (b.addConcept c).nsmap = (b.nsmap.qname c.qname).2 := by
  simp only [Builder.addConcept]
  split <;> rfl

theorem addConcept_present (b : Builder) (c : Concept)
    (h : hasKey b.concepts (b.nsmap.qname c.qname).1 = true) :
    b.addConcept c = { b with nsmap := (b.nsmap.qname c.qname).2 } := by
  simp only [Builder.addConcept]
  rw [if_pos h]

theorem addConcept_hasKey (b : Builder) (c : Concept) :
    hasKey (b.addConcept c).concepts (b.nsmap.qname c.qname).1 = true := by
  simp only [Builder.addConcept]
  by_cases h : hasKey b.concepts (b.nsmap.qname c.qname).1 = true
  · rw [if_pos h]
    exact h
  · rw [if_neg h]
    show hasKey (setKey b.concepts (b.nsmap.qname c.qname).1 _) _ = true
    unfold hasKey
    rw [lookup_setKey_self]
    rfl

theorem qname_stable (m : NamespaceMap) (q : QName) :
    (m.qname q).2.qname q = m.qname q := by
  unfold NamespaceMap.qname
  rw [getPrefix_stable]

/-- C7: `addConcept` is idempotent per concept per build: when the
concept's qualified name is already a key of the concepts table the call
leaves the concepts table unchanged, and calling `addConcept` twice with
the same concept produces exactly the state of calling it once. -/
theorem addConcept_idempotent (b : Builder) (c : Concept) :
    (hasKey b.concepts (b.nsmap.qname c.qname).1 = true →
      (b.addConcept c).concepts = b.concepts) ∧
    (b.addConcept c).addConcept c = b.addConcept c := by
  constructor
  · intro h
    rw [addConcept_present b c h]
  · have hn : (b.addConcept c).nsmap = (b.nsmap.qname c.qname).2 := addConcept_nsmap b c
    have hq : (b.addConcept c).nsmap.qname c.qname = b.nsmap.qname c.qname := by
      rw [hn]
      exact qname_stable b.nsmap c.qname
    have hk : hasKey (b.addConcept c).concepts ((b.addConcept c).nsmap.qname c.qname).1 = true := by
      rw [hq]
      exact addConcept_hasKey b c
    rw [addConcept_present (b.addConcept c) c hk]
    have hval : ((b.addConcept c).nsmap.qname c.qname).2 = (b.addConcept c).nsmap := by
      rw [hq, ← hn]
    rw [hval]

/-- A concrete concept used by witnesses. -/
def sampleQName : QName := ⟨"http://example.com/t", some "ex", "Assets"⟩

def sampleConcept : Concept := ⟨sampleQName, [⟨standardLabel, "en", "Assets"⟩]⟩

/-- Witness for C7 at a concrete state that already contains the concept. -/
theorem addConcept_idempotent_witness :
    ((Builder.init.addConcept sampleConcept).addConcept sampleConcept).concepts
        = (Builder.init.addConcept sampleConcept).concepts ∧
    ((Builder.init.addConcept sampleConcept).addConcept sampleConcept)
        = Builder.init.addConcept sampleConcept :=
  ⟨(addConcept_idempotent (Builder.init.addConcept sampleConcept) sampleConcept).1 (by decide),
   (addConcept_idempotent Builder.init sampleConcept).2⟩

/-! ## The temporal fields (C3) -/

theorem dateFormat_strip (s : String) : dateFormat (s ++ "T00:00:00") = s := by
  unfold dateFormat
  have hdata : (s ++ "T00:00:00").data = s.data ++ "T00:00:00".data := String.data_append s _
  rw [hdata]
  have hcond : (s.data ++ "T00:00:00".data).reverse.take 9 = "T00:00:00".data.reverse := by
    rw [List.reverse_append]
    rw [show (9 : Nat) = ("T00:00:00".data.reverse).length from rfl]
    exact List.take_left _ _
  rw [if_pos hcond]
  apply String.ext
  show (s.data ++ "T00:00:00".data).take ((s.data ++ "T00:00:00".data).length - 9) = s.data
  rw [List.length_append, show ("T00:00:00".data).length = 9 from rfl,
    show s.data.length + 9 - 9 = s.data.length from by omega]
  exact List.take_left _ _

theorem dateFormat_keep (s : String) (h : s.data.reverse.take 9 ≠ "T00:00:00".data.reverse) :
    dateFormat s = s := by
  unfold dateFormat
  rw [if_neg h]

/-- C3: the record stored under the fact's identifier has exactly the
temporal keys the context's period kind dictates — only `pt` for an
instant period, `pf` and `pt` for a start/end period, formatted by
`dateFormat`, which strips a trailing `T00:00:00` and leaves any other
timestamp unchanged. -/
theorem processFact_period (b : Builder) (fid : String) (f : Fact) :
    (lookup (b.processFact fid f).facts fid).map FactData.pf =
      some (if f.context.isInstantPeriod then none
            else if f.context.isStartEndPeriod then some (dateFormat f.context.startDatetime)
            else none) ∧
    (lookup (b.processFact fid f).facts fid).map FactData.pt =
      some (if f.context.isInstantPeriod then some (dateFormat f.context.instantDatetime)
            else if f.context.isStartEndPeriod then some (dateFormat f.context.endDatetime)
            else none) ∧
    (∀ s : String, dateFormat (s ++ "T00:00:00") = s) ∧
    dateFormat "2023-01-01T00:00:00" = "2023-01-01" ∧
    dateFormat "2023-01-01T08:30:00" = "2023-01-01T08:30:00" := by
  refine ⟨?_, ?_, dateFormat_strip, by decide, by decide⟩
  · simp only [Builder.processFact, addConcept_facts, lookup_setKey_self, Option.map_some']
  · simp only [Builder.processFact, addConcept_facts, lookup_setKey_self, Option.map_some']

/-! ## Identifier assignment (C4) -/

theorem processFacts_nil (b : Builder) (idGen : Nat) :
    Builder.processFacts b idGen [] = (b, []) := rfl

theorem processFacts_cons (b : Builder) (idGen : Nat) (f : Fact) (rest : List Fact) :
    Builder.processFacts b idGen (f :: rest) =
      ((Builder.processFacts
          (b.processFact (effectiveId idGen f) { f with id := some (effectiveId idGen f) })
          (idGen + 1) rest).1,
       { f with id := some (effectiveId idGen f) } ::
         (Builder.processFacts
           (b.processFact (effectiveId idGen f) { f with id := some (effectiveId idGen f) })
           (idGen + 1) rest).2) := rfl

theorem processFacts_length (facts : List Fact) : ∀ (b : Builder) (idGen : Nat),
    (Builder.processFacts b idGen facts).2.length = facts.length := by
  induction facts with
  | nil => intro b idGen; rfl
  | cons f rest ih =>
    intro b idGen
    rw [processFacts_cons]
    simp [ih]

theorem processFacts_get_id (facts : List Fact) : ∀ (b : Builder) (idGen i : Nat) (f : Fact),
    facts.get? i = some f → f.id = none →
    ∃ f', (Builder.processFacts b idGen facts).2.get? i = some f' ∧
      f'.id = some ("ixv-" ++ decStr (idGen + i)) := by
  induction facts with
  | nil =>
    intro b idGen i f hget
    simp at hget
  | cons f0 rest ih =>
    intro b idGen i f hget hnone
    rw [processFacts_cons]
    cases i with
    | zero =>
      simp only [List.get?] at hget
      obtain rfl : f0 = f := Option.some_inj.mp hget
      refine ⟨{ f0 with id := some (effectiveId idGen f0) }, rfl, ?_⟩
      simp [effectiveId, hnone]
    | succ i =>
      simp only [List.get?] at hget
      obtain ⟨f', hg, hid⟩ := ih _ (idGen + 1) i f hget hnone
      refine ⟨f', hg, ?_⟩
      rw [hid, show idGen + 1 + i = idGen + (i + 1) from by omega]

/-- C4: a fact at zero-based position `i` of the build's fact list that
lacks an identifier is assigned `"ixv-<i>"`: the counter starts at 0 and
advances once per fact, whether or not that fact already had an
identifier. -/
theorem saveViewer_fact_ids (dts : ModelXbrl) (i : Nat) (f : Fact)
    (hget : dts.facts.get? i = some f) (hnone : f.id = none) :
    ∃ f', (saveViewerData dts).2.get? i = some f' ∧
      f'.id = some ("ixv-" ++ decStr i) := by
  obtain ⟨f', hg, hid⟩ := processFacts_get_id dts.facts
    { Builder.init with
        roleMap := ((Builder.init.roleMap.getPrefix standardLabel (some "std")).2.getPrefix
          documentationLabel (some "doc")).2 }
    0 i f hget hnone
  rw [show (0 : Nat) + i = i from by omega] at hid
  exact ⟨f', hg, hid⟩

/-- Concrete facts for the witnesses. -/
def sampleContextInstant : Context :=
  ⟨[], true, false, "2023-01-01T00:00:00", "", ""⟩

def sampleContextDuration : Context :=
  ⟨[], false, true, "", "2020-01-01T00:00:00", "2020-12-31T08:30:00"⟩

def sampleFactNoId : Fact :=
  ⟨none, sampleQName, sampleContextInstant, false, sampleQName, "None", "1", sampleConcept⟩

def dts3 : ModelXbrl := ⟨[sampleFactNoId, sampleFactNoId, sampleFactNoId]⟩

/-- Witness for C4: three facts with no identifiers receive `ixv-0`,
`ixv-1`, `ixv-2` in iteration order. -/
theorem saveViewer_fact_ids_witness :
    (∃ f', (saveViewerData dts3).2.get? 0 = some f' ∧ f'.id = some "ixv-0") ∧
    (∃ f', (saveViewerData dts3).2.get? 1 = some f' ∧ f'.id = some "ixv-1") ∧
    (∃ f', (saveViewerData dts3).2.get? 2 = some f' ∧ f'.id = some "ixv-2") := by
  refine ⟨?_, ?_, ?_⟩
  · obtain ⟨f', hg, hid⟩ := saveViewer_fact_ids dts3 0 sampleFactNoId rfl rfl
    exact ⟨f', hg, hid.trans (by decide)⟩
  · obtain ⟨f', hg, hid⟩ := saveViewer_fact_ids dts3 1 sampleFactNoId rfl rfl
    exact ⟨f', hg, hid.trans (by decide)⟩
  · obtain ⟨f', hg, hid⟩ := saveViewer_fact_ids dts3 2 sampleFactNoId rfl rfl
    exact ⟨f', hg, hid.trans (by decide)⟩

/-! ## Typed dimensions are skipped (C6) -/

theorem processDims_cons (b : Builder) (dims : Dict String String) (q : QName) (v : DimValue)
    (rest : List (QName × DimValue)) :
    processDims b dims ((q, v) :: rest) =
      match v.memberQname with
      | none => processDims b dims rest
      | some mq =>
        processDims
          (Builder.addConcept
            (Builder.addConcept
              { b with nsmap := ((b.nsmap.qname mq).2.qname v.dimensionQname).2 } v.dimension)
            v.member)
          (setKey dims ((b.nsmap.qname mq).2.qname v.dimensionQname).1 (b.nsmap.qname mq).1)
          rest := rfl

theorem processDims_cons_none (b : Builder) (dims : Dict String String) (q : QName)
    (v : DimValue) (rest : List (QName × DimValue)) (h : v.memberQname = none) :
    processDims b dims ((q, v) :: rest) = processDims b dims rest := by
  rw [processDims_cons, h]

theorem processDims_cons_some (b : Builder) (dims : Dict String String) (q : QName)
    (v : DimValue) (rest : List (QName × DimValue)) (mq : QName)
    (h : v.memberQname = some mq) :
    processDims b dims ((q, v) :: rest) =
      processDims
        (Builder.addConcept
          (Builder.addConcept
            { b with nsmap := ((b.nsmap.qname mq).2.qname v.dimensionQname).2 } v.dimension)
          v.member)
        (setKey dims ((b.nsmap.qname mq).2.qname v.dimensionQname).1 (b.nsmap.qname mq).1)
        rest := by
  rw [processDims_cons, h]

theorem processDims_filter (l : List (QName × DimValue)) :
    ∀ (b : Builder) (dims : Dict String String),
    processDims b dims l = processDims b dims (l.filter (fun p => p.2.memberQname.isSome)) := by
  induction l with
  | nil => intro b dims; rfl
  | cons p rest ih =>
    intro b dims
    obtain ⟨q, v⟩ := p
    cases hm : v.memberQname with
    | none =>
      rw [processDims_cons_none b dims q v rest hm,
        show ((q, v) :: rest).filter (fun p => p.2.memberQname.isSome)
          = rest.filter (fun p => p.2.memberQname.isSome) from by simp [List.filter, hm]]
      exact ih b dims
    | some mq =>
      rw [processDims_cons_some b dims q v rest mq hm,
        show ((q, v) :: rest).filter (fun p => p.2.memberQname.isSome)
          = (q, v) :: rest.filter (fun p => p.2.memberQname.isSome) from by
            simp [List.filter, hm],
        processDims_cons_some _ _ q v _ mq hm]
      exact ih _ _

theorem processDims_all_typed (l : List (QName × DimValue))
    (hall : ∀ p ∈ l, p.2.memberQname = none) (b : Builder) (dims : Dict String String) :
    processDims b dims l = (b, dims) := by
  rw [processDims_filter,
    show l.filter (fun p => p.2.memberQname.isSome) = [] from
      List.filter_eq_nil_iff.mpr (fun p hp => by rw [hall p hp]; exact Bool.false_ne_true)]
  rfl

theorem processFact_all_typed (b : Builder) (fid : String) (f : Fact)
    (hall : ∀ p ∈ f.context.qnameDims, p.2.memberQname = none) :
    b.processFact fid f =
      b.processFact fid { f with context := { f.context with qnameDims := [] } } := by
  simp only [Builder.processFact]
  rw [processDims_all_typed f.context.qnameDims hall]
  rfl

/-- C6: a typed dimensional qualifier (one with no member value) is
skipped without error and without effect: running the dimension loop is
the same as running it on only the non-typed qualifiers, a fact whose
qualifiers are all typed is processed exactly as if it had no qualifiers
at all (so it still yields a complete record whose dimensions map is
empty and registers no dimension or member concept), and a non-typed
qualifier still contributes its dimension-qname to member-qname entry. -/
theorem processDims_typed_skipped (b : Builder) (dims : Dict String String)
    (l : List (QName × DimValue)) (fid : String) (f : Fact) :
    processDims b dims l = processDims b dims (l.filter (fun p => p.2.memberQname.isSome)) ∧
    ((∀ p ∈ l, p.2.memberQname = none) → processDims b dims l = (b, dims)) ∧
    (∀ (q : QName) (v : DimValue) (mq : QName), v.memberQname = some mq →
      (processDims b dims [(q, v)]).2 =
        setKey dims ((b.nsmap.qname mq).2.qname v.dimensionQname).1 (b.nsmap.qname mq).1) ∧
    ((∀ p ∈ f.context.qnameDims, p.2.memberQname = none) →
      b.processFact fid f =
        b.processFact fid { f with context := { f.context with qnameDims := [] } }) := by
  refine ⟨processDims_filter l b dims, fun h => processDims_all_typed l h b dims, ?_,
    processFact_all_typed b fid f⟩
  intro q v mq h
  rw [processDims_cons_some b dims q v [] mq h]
  rfl

/-- A typed dimension value (no member) and a fact carrying only it. -/
def typedDimValue : DimValue := ⟨sampleQName, none, sampleConcept, sampleConcept⟩

def typedFact : Fact :=
  ⟨some "f1", sampleQName,
   ⟨[(sampleQName, typedDimValue)], true, false, "2023-01-01T00:00:00", "", ""⟩,
   false, sampleQName, "None", "1", sampleConcept⟩

/-- Witness for C6 at a fact whose only qualifier is typed. -/
theorem processDims_typed_skipped_witness :
    processDims Builder.init [] [(sampleQName, typedDimValue)] = (Builder.init, []) ∧
    Builder.init.processFact "f1" typedFact =
      Builder.init.processFact "f1"
        { typedFact with context := { typedFact.context with qnameDims := [] } } :=
  ⟨(processDims_typed_skipped Builder.init [] [(sampleQName, typedDimValue)] "f1"
      typedFact).2.1 (by decide),
   (processDims_typed_skipped Builder.init [] [(sampleQName, typedDimValue)] "f1"
      typedFact).2.2.2 (by decide)⟩

/-! ## Schema completeness (C8) -/

/-- C8: the serialized output always carries exactly the four top-level
keys `concepts`, `facts`, `prefixes`, `roles`, in that order; with zero
facts the concepts and facts tables are empty and the roles table holds
exactly the two pre-seeded bindings `std` and `doc` (made before any fact
is processed). -/
theorem saveViewer_schema (dts : ModelXbrl) :
    (∃ cs fs ps rs, (saveViewerData dts).1.toJ =
        JVal.jobj [("concepts", cs), ("facts", fs), ("prefixes", ps), ("roles", rs)]) ∧
    (dts.facts = [] →
      (saveViewerData dts).1.toJ =
        JVal.jobj [("concepts", JVal.jobj []), ("facts", JVal.jobj []),
          ("prefixes", JVal.jobj []),
          ("roles", JVal.jobj [("std", JVal.jstr standardLabel),
            ("doc", JVal.jstr documentationLabel)])]) := by
  constructor
  · exact ⟨_, _, _, _, rfl⟩
  · intro h
    obtain ⟨facts⟩ := dts
    simp only at h
    subst h
    rfl

/-- Witness for C8 at the empty model. -/
theorem saveViewer_schema_witness :
    (saveViewerData ⟨[]⟩).1.toJ =
      JVal.jobj [("concepts", JVal.jobj []), ("facts", JVal.jobj []),
        ("prefixes", JVal.jobj []),
        ("roles", JVal.jobj [("std", JVal.jstr standardLabel),
          ("doc", JVal.jstr documentationLabel)])] :=
  (saveViewer_schema ⟨[]⟩).2 rfl

/-! ## The final file write (C9)

The last two lines of `saveViewer` are
`with open(outFile, "wb") as fout: fout.write(serialized)`.  The state
model below embeds their effect on the target file: `open(..., "wb")`
truncates the file immediately, `fout.write` emits the payload bytes (an
I/O error can interrupt it after any number of bytes, which
`WriteOutcome.failAfter k` models), and leaving the `with` block closes
the handle whether or not the write raised. -/

structure FileState where
  contents : List Nat
  isOpen : Bool
deriving DecidableEq

inductive WriteOutcome where
  | ok
  | failAfter (k : Nat)
deriving DecidableEq

def withOpenWrite (prev : List Nat) (payload : List Nat) (o : WriteOutcome) : FileState :=
  let afterOpen : FileState := { contents := [], isOpen := true }
  let afterWrite : FileState :=
    match o with
    | .ok => { afterOpen with contents := payload }
    | .failAfter k => { afterOpen with contents := payload.take k }
  { afterWrite with isOpen := false }

/-- Counterexample to C9 as stated: a write that fails after one byte
leaves a file that is neither the previous contents nor the complete
payload — a partial file survives, because `open("wb")` truncates at once
and nothing restores or completes the file on error. -/
theorem withOpenWrite_partial_counterexample :
    (withOpenWrite [9] [1, 2] (WriteOutcome.failAfter 1)).contents ≠ [1, 2] ∧
    (withOpenWrite [9] [1, 2] (WriteOutcome.failAfter 1)).contents ≠ [9] ∧
    (withOpenWrite [9] [1, 2] (WriteOutcome.failAfter 1)).contents = [1] ∧
    (withOpenWrite [9] [1, 2] (WriteOutcome.failAfter 1)).isOpen = false := by
  decide

/-- C9 (amended): the handle is scoped to the final write and released on
every exit path, including a failed write; on success the file holds
exactly the payload; but on failure a partial file (a proper prefix of
the payload) may remain and the previous contents are lost — there is no
write-to-completion-or-not-at-all guarantee. -/
theorem withOpenWrite_spec (prev payload : List Nat) (o : WriteOutcome) :
    (withOpenWrite prev payload o).isOpen = false ∧
    (o = WriteOutcome.ok → (withOpenWrite prev payload o).contents = payload) ∧
    (∀ k, o = WriteOutcome.failAfter k →
      (withOpenWrite prev payload o).contents = payload.take k) := by
  refine ⟨?_, ?_, ?_⟩
  · cases o <;> rfl
  · intro h
    subst h
    rfl
  · intro k h
    subst h
    rfl

/-- Witness for C9 (amended) at concrete bytes. -/
theorem withOpenWrite_spec_witness :
    (withOpenWrite [9] [1, 2] WriteOutcome.ok).contents = [1, 2] ∧
    (withOpenWrite [9] [1, 2] (WriteOutcome.failAfter 1)).contents = [1] ∧
    (withOpenWrite [9] [1, 2] (WriteOutcome.failAfter 1)).isOpen = false := by
  refine ⟨(withOpenWrite_spec [9] [1, 2] WriteOutcome.ok).2.1 rfl, ?_,
    (withOpenWrite_spec [9] [1, 2] (WriteOutcome.failAfter 1)).1⟩
  exact ((withOpenWrite_spec [9] [1, 2] (WriteOutcome.failAfter 1)).2.2 1 rfl).trans (by decide)

/-! ## The markup mutation (C10)

The tail of `saveViewer` walks the direct children of the document root
and, on the first child whose tag is the XHTML `body` tag, appends the
comment sentinels and the two script elements, then breaks out of the
loop; the (possibly unchanged) tree is then serialized and written out
unconditionally.  lxml iteration also yields comment nodes, whose `tag`
is never equal to a string, which the `comment` constructor models. -/

inductive XNode where
  | elem (tag : String) (attrs : List (String × String)) (text : String)
      (children : List XNode)
  | comment (text : String)

def bodyTag : String := "\x7bhttp://www.w3.org/1999/xhtml\x7dbody"

def scriptTag : String := "\x7bhttp://www.w3.org/1999/xhtml\x7dscript"

def isBody : XNode → Bool
  | .elem tag _ _ _ => tag = bodyTag
  | .comment _ => false

/-- The four nodes appended inside the body element, in order. -/
def viewerNodes (taxonomyDataJSON : String) : List XNode :=
  [ .comment "BEGIN IXBRL VIEWER EXTENSIONS",
    .elem scriptTag [("src", "js/dist/ixbrlviewer.js")] "" [],
    .elem scriptTag [("id", "taxonomy-data"), ("type", "application/json")]
      taxonomyDataJSON [],
    .comment "END IXBRL VIEWER EXTENSIONS" ]

def appendChildren (n : XNode) (extra : List XNode) : XNode :=
  match n with
  | .elem tag attrs text children => .elem tag attrs text (children ++ extra)
  | .comment c => .comment c

/-- The `for child in root: if child.tag == '...body': ...; break` loop
over the root's direct children: only the first body child is modified. -/
def insertViewer (payload : String) : List XNode → List XNode
  | [] => []
  | c :: rest =>
    if isBody c then appendChildren c (viewerNodes payload) :: rest
    else c :: insertViewer payload rest

def addViewerToDocument (doc : XNode) (payload : String) : XNode :=
  match doc with
  | .elem tag attrs text children => .elem tag attrs text (insertViewer payload children)
  | .comment c => .comment c

def serializeAttrs (attrs : List (String × String)) : String :=
  attrs.foldl (fun acc p => acc ++ " " ++ p.1 ++ "=\"" ++ p.2 ++ "\"") ""

mutual

def serialize : XNode → String
  | .comment c => "<!--" ++ c ++ "-->"
  | .elem tag attrs text children =>
    "<" ++ tag ++ serializeAttrs attrs ++ ">" ++ text ++
      serializeChildren children ++ "</" ++ tag ++ ">"

def serializeChildren : List XNode → String
  | [] => ""
  | c :: rest => serialize c ++ serializeChildren rest

end

/-- The bytes written by `saveViewer`: the serialization of the document
after the (attempted) body mutation, written whether or not a body was
found. -/
def saveViewerOutput (doc : XNode) (payload : String) : String :=
  serialize (addViewerToDocument doc payload)

theorem insertViewer_no_body (payload : String) (l : List XNode)
    (h : ∀ c ∈ l, isBody c = false) : insertViewer payload l = l := by
  induction l with
  | nil => rfl
  | cons c rest ih =>
    show (if isBody c then _ else c :: insertViewer payload rest) = c :: rest
    rw [h c (List.mem_cons_self c rest)]
    rw [ih (fun c' hc' => h c' (List.mem_cons_of_mem c hc'))]
    rfl

/-- C10: when no direct child of the root is a body element, the markup
tree is left completely unchanged — no comment or script node is appended
anywhere — yet the document is still serialized and written, so the
output is exactly the serialization of the untouched tree (in particular
it contains no embedded payload and no viewer script reference beyond
what the input already contained); and when body children do exist, only
the first one is modified, by appending exactly the four viewer nodes. -/
theorem saveViewer_no_body (payload : String) (tag : String)
    (attrs : List (String × String)) (text : String) (children : List XNode)
    (h : ∀ c ∈ children, isBody c = false) :
    addViewerToDocument (.elem tag attrs text children) payload =
      .elem tag attrs text children ∧
    saveViewerOutput (.elem tag attrs text children) payload =
      serialize (.elem tag attrs text children) ∧
    (∀ (pre post : List XNode) (body : XNode),
      (∀ c ∈ pre, isBody c = false) → isBody body = true →
      insertViewer payload (pre ++ body :: post) =
        pre ++ appendChildren body (viewerNodes payload) :: post) := by
  refine ⟨?_, ?_, ?_⟩
  · show XNode.elem tag attrs text (insertViewer payload children) = _
    rw [insertViewer_no_body payload children h]
  · show serialize (addViewerToDocument (.elem tag attrs text children) payload) = _
    rw [show addViewerToDocument (.elem tag attrs text children) payload =
        XNode.elem tag attrs text (insertViewer payload children) from rfl,
      insertViewer_no_body payload children h]
  · intro pre post body hpre hbody
    induction pre with
    | nil =>
      show (if isBody body then _ else _) = _
      rw [hbody]
      rfl
    | cons c rest ih =>
      show (if isBody c then _ else c :: insertViewer payload (rest ++ body :: post)) = _
      rw [hpre c (List.mem_cons_self c rest)]
      rw [ih (fun c' hc' => hpre c' (List.mem_cons_of_mem c hc'))]
      rfl

/-- A root with a head element and a comment but no body child. -/
def docNoBody : XNode :=
  .elem "\x7bhttp://www.w3.org/1999/xhtml\x7dhtml" [] ""
    [.elem "\x7bhttp://www.w3.org/1999/xhtml\x7dhead" [] "" [], .comment "note"]

/-- Witness for C10 at a concrete document with no body child. -/
theorem saveViewer_no_body_witness :
    addViewerToDocument docNoBody "payload" = docNoBody ∧
    saveViewerOutput docNoBody "payload" = serialize docNoBody := by
  have h := saveViewer_no_body "payload" "\x7bhttp://www.w3.org/1999/xhtml\x7dhtml" [] ""
    [.elem "\x7bhttp://www.w3.org/1999/xhtml\x7dhead" [] "" [], .comment "note"]
    (by decide)
  exact ⟨h.1, h.2.1⟩

end IXV
